import Mathlib

/-!
Verification of the SmartPark parking-lot reservation engine (src/app.js).

The engine keeps three collections (app.js lines 44-61):
  parkingSlots : fixed array of TOTAL_SLOTS = 20 cells, each null or an
                 occupant record {plate, time, id};
  arrayList    : the ordered list of active reservations {plate, slot, time, id};
  queue        : the FIFO waiting list of {plate, time, id} records.

The shallow embedding below translates the mutating operations
insertReservation (lines 409-481), deleteReservation (lines 249-271),
sortBySlot (lines 348-362) and search (lines 535-581) into pure functions
on an explicit state record.  Timestamps and generated ids are
nondeterministic in the source (Date.now, Math.random); they are passed to
the operations as explicit arguments.  DOM rendering, alerts and the
localStorage persistence calls have no effect on the three collections and
are omitted.
-/

namespace SmartPark

/-! ### Models of the JavaScript string primitives used by the engine.
All of them are written over the character list of the string so that they
evaluate inside the kernel.  They agree with the JavaScript originals on
ASCII input (plates, slot numbers and search terms in this system). -/

/-- Model of the JS whitespace class recognised by String.prototype.trim,
restricted to the ASCII range. -/
def isJsSpace (c : Char) : Bool := c == ' ' || c == '\t' || c == '\n' || c == '\r'

/-- Trim of a character list: drop leading and trailing whitespace. -/
def trimCharList (cs : List Char) : List Char :=
  ((cs.dropWhile isJsSpace).reverse.dropWhile isJsSpace).reverse

/-- Model of JS String.prototype.trim (ASCII range). -/
def jsTrim (s : String) : String := ⟨trimCharList s.data⟩

/-- ASCII lower-casing of one character, as toLowerCase does on ASCII. -/
def lowerChar (c : Char) : Char :=
  if 'A' ≤ c && c ≤ 'Z' then Char.ofNat (c.toNat + 32) else c

/-- Model of JS String.prototype.toLowerCase (ASCII range). -/
def jsToLower (s : String) : String := ⟨s.data.map lowerChar⟩

/-- Contiguous-substring test on character lists; models
String.prototype.includes. -/
def containsCharList (hay needle : List Char) : Bool :=
  needle.isPrefixOf hay ||
    match hay with
    | [] => false
    | _ :: t => containsCharList t needle

/-- Decimal value of a digit string. -/
def digitsToNat (ds : List Char) : Nat :=
  ds.foldl (fun a c => a * 10 + (c.toNat - 48)) 0

/-- Model of JS parseInt(s, 10): skip leading whitespace, read an optional
sign and then the longest prefix of decimal digits; none models the NaN
result produced when no digit is found. -/
def jsParseInt10 (s : String) : Option Int :=
  let cs := (jsTrim s).data
  let signRest : Int × List Char :=
    match cs with
    | '-' :: t => (-1, t)
    | '+' :: t => (1, t)
    | t => (1, t)
  let ds := signRest.2.takeWhile Char.isDigit
  if ds.isEmpty then none
  else some (signRest.1 * (digitsToNat ds : Int))

/-! ### Data model (app.js lines 44-61, spec section 3). -/

/-- Total parking capacity, TOTAL_SLOTS = 20 (app.js line 44). -/
def TOTAL_SLOTS : Nat := 20

/-- Occupant record stored in a parkingSlots cell (app.js lines 262, 461):
the fields plate, time, id mirrored from the owning reservation. -/
structure Cell where
  plate : String
  time : String
  id : String
deriving DecidableEq, Repr

/-- An active reservation stored in arrayList (app.js lines 460-462). -/
structure Reservation where
  plate : String
  slot : Nat
  time : String
  id : String
deriving DecidableEq, Repr

/-- A waiting-list record stored in queue (app.js lines 429, 455). -/
structure PendingRequest where
  plate : String
  time : String
  id : String
deriving DecidableEq, Repr

/-- The three collections owned by the engine (app.js lines 52-61). -/
structure ParkState where
  parkingSlots : List (Option Cell)
  arrayList : List Reservation
  queue : List PendingRequest
deriving DecidableEq, Repr

/-- The state at startup with no saved data: 20 empty cells, no
reservations, empty queue (app.js lines 52-61). -/
def initialState : ParkState :=
  { parkingSlots := List.replicate TOTAL_SLOTS none
    arrayList := []
    queue := [] }

/-! ### Operations. -/

/-- Result of insertReservation, read off the alert/confirm calls of
app.js lines 409-481.  queuedFull is the lot-full enqueue of lines
428-435, queuedNoFree the fallback enqueue of lines 454-457 (auto scan
found no free cell), nanSlot the branch where parseInt returns NaN (only
reachable with a chosenSlot that is neither auto nor numeric; the UI
dropdown of app.js lines 123 and 157-160 only supplies auto and the
strings 1..20, so no theorem below is about this branch). -/
inductive InsertOutcome
  | validationError
  | duplicateError
  | queuedFull
  | invalidSlot
  | slotOccupied
  | queuedNoFree
  | nanSlot
  | reserved (slot : Nat) (id : String) (time : String)
deriving DecidableEq, Repr

/-- Shared success tail of insertReservation (app.js lines 458-462):
write the mirrored cell and push the new reservation at the back of
arrayList. -/
def commitAt (st : ParkState) (plate time id : String) (slotIndex : Nat) :
    InsertOutcome × ParkState :=
  (.reserved (slotIndex + 1) id time,
   { st with
       parkingSlots := st.parkingSlots.set slotIndex (some ⟨plate, time, id⟩)
       arrayList := st.arrayList ++ [⟨plate, slotIndex + 1, time, id⟩] })

/-- insertReservation(plate, chosenSlot) of app.js lines 409-481.
time and id stand for the nowString() timestamp and the generated id of
lines 424-425.  Line-by-line: empty-after-trim validation (411-415),
case-insensitive duplicate scan of arrayList and queue (418-422), lot-full
enqueue (428-435), slot resolution (438-452) with the auto linear scan for
the first null cell (440) or parseInt bounds/occupancy checks on an
explicit choice (442-451), the slotIndex = -1 fallback enqueue (454-457),
and the commit (458-462). -/
def insertReservation (st : ParkState) (plate chosenSlot time id : String) :
    InsertOutcome × ParkState :=
  if jsTrim plate = "" then (.validationError, st)
  else
    let plate := jsTrim plate
    if (st.arrayList.any (fun r => jsToLower r.plate == jsToLower plate) ||
        st.queue.any (fun q => jsToLower q.plate == jsToLower plate)) then
      (.duplicateError, st)
    else if TOTAL_SLOTS ≤ st.arrayList.length then
      (.queuedFull, { st with queue := st.queue ++ [⟨plate, time, id⟩] })
    else if chosenSlot = "auto" then
      match st.parkingSlots.findIdx? (fun s => s.isNone) with
      | none => (.queuedNoFree, { st with queue := st.queue ++ [⟨plate, time, id⟩] })
      | some slotIndex => commitAt st plate time id slotIndex
    else
      match jsParseInt10 chosenSlot with
      | none => (.nanSlot, st)
      | some n =>
        let si : Int := n - 1
        if si < 0 || (TOTAL_SLOTS : Int) ≤ si then (.invalidSlot, st)
        else if (st.parkingSlots.getD si.toNat none).isSome then (.slotOccupied, st)
        else commitAt st plate time id si.toNat

/-- Result of deleteReservation, following spec section 4.2: whether the
record was found and whether a waiting request was promoted (the promoted
plate and slot are the ones announced by the alert of app.js line 264). -/
inductive DeleteOutcome
  | notFound
  | deleted (slot : Nat)
  | promoted (plate : String) (slot : Nat)
deriving DecidableEq, Repr

/-- deleteReservation(id) of app.js lines 249-271.  The findIndex of line
250 followed by the splice of line 254 is rendered as find? + eraseP,
which remove exactly the first record whose id matches.  Line 255 clears
the vacated cell; lines 258-264 dequeue the queue head, overwrite the same
cell and push the promoted reservation.  ptime and pid stand for the fresh
timestamp and generated id of lines 260-261. -/
def deleteReservation (st : ParkState) (id ptime pid : String) :
    DeleteOutcome × ParkState :=
  match st.arrayList.find? (fun r => r.id == id) with
  | none => (.notFound, st)
  | some r0 =>
    let slotNum := r0.slot
    let l := st.arrayList.eraseP (fun r => r.id == id)
    let cells := st.parkingSlots.set (slotNum - 1) none
    match st.queue with
    | [] => (.deleted slotNum, { parkingSlots := cells, arrayList := l, queue := [] })
    | next :: restQ =>
      (.promoted next.plate slotNum,
       { parkingSlots := cells.set (slotNum - 1) (some ⟨next.plate, ptime, pid⟩)
         arrayList := l ++ [⟨next.plate, slotNum, ptime, pid⟩]
         queue := restQ })

/-- sortBySlot of app.js lines 348-362: stable in-place sort of arrayList
by ascending slot number (the JS sort comparator a.slot - b.slot; ES2019
Array.prototype.sort is stable, modelled by the stable mergeSort). -/
def sortBySlot (st : ParkState) : ParkState :=
  { st with arrayList := st.arrayList.mergeSort (fun a b => a.slot ≤ b.slot) }

/-- search(term) of app.js lines 535-581, restricted to the computed
result set: empty trimmed term gives the empty result (lines 536-540), and
otherwise the records whose lower-cased plate contains the lower-cased
term or whose slot number printed as a string equals the term exactly
(lines 554-559), in arrayList order. -/
def search (st : ParkState) (term : String) : List Reservation :=
  let term := jsTrim term
  if term = "" then []
  else st.arrayList.filter
    (fun r => containsCharList (jsToLower r.plate).data (jsToLower term).data ||
      toString r.slot == term)

/-! ### Operation sequences (for the global invariant claim). -/

/-- One engine mutation: an insert or a delete call with all of its
nondeterministic inputs made explicit. -/
inductive Op
  | ins (plate chosenSlot time id : String)
  | del (id ptime pid : String)

/-- Apply one operation to the state, discarding the reported outcome. -/
def applyOp (st : ParkState) : Op → ParkState
  | .ins p c t i => (insertReservation st p c t i).2
  | .del i pt pid => (deleteReservation st i pt pid).2

/-- Run a sequence of operations from the startup state. -/
def runOps (ops : List Op) : ParkState := ops.foldl applyOp initialState

/-! ### The SlotTable-ReservationList invariant (spec section 3). -/

/-- The cell contents mirrored from a reservation. -/
def cellOf (r : Reservation) : Cell := ⟨r.plate, r.time, r.id⟩

/-- r is the reservation entry for the occupied cell at index i holding c:
slot is i + 1 and plate, timestamp and id agree. -/
def matchesCell (i : Nat) (c : Cell) (r : Reservation) : Bool :=
  r.slot == i + 1 && r.plate == c.plate && r.time == c.time && r.id == c.id

/-- The invariant of spec section 3: the slot table keeps its fixed
length, the reservation list never exceeds capacity, every occupied cell
has exactly one matching reservation, and every reservation has slot at
least 1 and is mirrored by the occupied cell at index slot - 1 (its unique
corresponding cell, since a matching cell index is determined by the slot
number). -/
def StateInv (st : ParkState) : Prop :=
  st.parkingSlots.length = TOTAL_SLOTS ∧
  st.arrayList.length ≤ TOTAL_SLOTS ∧
  (∀ i c, st.parkingSlots[i]? = some (some c) →
      st.arrayList.countP (matchesCell i c) = 1) ∧
  (∀ r ∈ st.arrayList, 1 ≤ r.slot ∧
      st.parkingSlots[r.slot - 1]? = some (some (cellOf r)))

/-! ### Helper lemmas about the list primitives used by the engine. -/

/-- Elements found by findIdx? satisfy the predicate, generalised over the
start index. -/
lemma of_findIdx?_eq_some_aux {α : Type} (p : α → Bool) :
    ∀ (l : List α) (k i : Nat), l.findIdx? p k = some i →
      ∃ j x, i = k + j ∧ l[j]? = some x ∧ p x = true := by
  intro l
  induction l with
  | nil => intro k i h; simp [List.findIdx?] at h
  | cons a t ih =>
    intro k i h
    rw [List.findIdx?_cons] at h
    by_cases hpa : p a = true
    · rw [if_pos hpa] at h
      cases h
      exact ⟨0, a, by omega, by simp, hpa⟩
    · rw [if_neg hpa] at h
      obtain ⟨j, x, hi, hx, hpx⟩ := ih (k + 1) i h
      exact ⟨j + 1, x, by omega, by simpa using hx, hpx⟩

/-- Elements found by findIdx? satisfy the predicate. -/
lemma of_findIdx?_eq_some {α : Type} {p : α → Bool} {l : List α} {i : Nat}
    (h : l.findIdx? p = some i) : ∃ x, l[i]? = some x ∧ p x = true := by
  obtain ⟨j, x, hi, hx, hpx⟩ := of_findIdx?_eq_some_aux p l 0 i h
  exact ⟨x, by simpa [hi] using hx, hpx⟩

/-- findIdx? returns the least matching index, generalised over the start
index. -/
lemma findIdx?_eq_of_least_aux {α : Type} (p : α → Bool) :
    ∀ (l : List α) (i k : Nat),
      (∀ j, j < i → ∀ x, l[j]? = some x → p x = false) →
      ∀ x, l[i]? = some x → p x = true → l.findIdx? p k = some (k + i) := by
  intro l
  induction l with
  | nil => intro i k _ x hx; simp at hx
  | cons a t ih =>
    intro i k hleast x hx hpx
    rw [List.findIdx?_cons]
    cases i with
    | zero =>
      simp only [List.getElem?_cons_zero, Option.some.injEq] at hx
      rw [if_pos (hx ▸ hpx)]
      simp
    | succ i =>
      have hpa : p a = false := hleast 0 (Nat.succ_pos i) a (by simp)
      rw [if_neg (by simp [hpa])]
      have := ih i (k + 1)
        (fun j hj y hy => hleast (j + 1) (by omega) y (by simpa using hy))
        x (by simpa using hx) hpx
      rw [this]
      congr 1
      omega

/-- findIdx? returns the least matching index. -/
lemma findIdx?_eq_of_least {α : Type} {p : α → Bool} {l : List α} {i : Nat}
    (hleast : ∀ j, j < i → ∀ x, l[j]? = some x → p x = false)
    {x : α} (hx : l[i]? = some x) (hpx : p x = true) :
    l.findIdx? p = some i := by
  simpa using findIdx?_eq_of_least_aux p l i 0 hleast x hx hpx

/-- find? locates the first match; eraseP removes exactly that
occurrence.  This packages the splice of app.js line 254. -/
lemma find?_eraseP_split {α : Type} (p : α → Bool) :
    ∀ (l : List α) (a : α), l.find? p = some a →
      ∃ l₁ l₂, l = l₁ ++ a :: l₂ ∧ l.eraseP p = l₁ ++ l₂ ∧
        ∀ b ∈ l₁, p b = false := by
  intro l
  induction l with
  | nil => intro a h; simp at h
  | cons x t ih =>
    intro a h
    by_cases hpx : p x = true
    · rw [List.find?_cons_of_pos _ hpx] at h
      cases h
      exact ⟨[], t, by simp, by simp [List.eraseP_cons_of_pos hpx], by simp⟩
    · rw [List.find?_cons_of_neg _ hpx] at h
      obtain ⟨l₁, l₂, hdec, herase, hmem⟩ := ih a h
      refine ⟨x :: l₁, l₂, by simp [hdec], ?_, ?_⟩
      · rw [List.eraseP_cons_of_neg hpx, herase]; simp
      · intro b hb
        rcases List.mem_cons.mp hb with hb | hb
        · subst hb; simpa using hpx
        · exact hmem b hb

/-! ### Concrete states used to instantiate the theorems. -/

/-- A state with one reservation at slot 1 and one waiting request. -/
def wStA : ParkState :=
  { parkingSlots := (List.replicate TOTAL_SLOTS (none : Option Cell)).set 0
      (some ⟨"AAA", "t1", "id1"⟩)
    arrayList := [⟨"AAA", 1, "t1", "id1"⟩]
    queue := [⟨"BBB", "t2", "id2"⟩] }

/-- A state with all 20 slots committed and an empty queue. -/
def wStFull : ParkState :=
  { parkingSlots := (List.range TOTAL_SLOTS).map
      (fun i => some ⟨"Q" ++ toString i, "t0", "q" ++ toString i⟩)
    arrayList := (List.range TOTAL_SLOTS).map
      (fun i => ⟨"Q" ++ toString i, i + 1, "t0", "q" ++ toString i⟩)
    queue := [] }

/-! ### The claims. -/

/-- Claim C3: inserting a plate that, compared case-insensitively, is
already present in ReservationList or WaitQueue fails with DuplicateError
and leaves the whole state (all three collections) unchanged, for every
slot choice. -/
theorem claim3_duplicate_insert_rejected (st : ParkState)
    (plate chosenSlot time id : String)
    (hval : jsTrim plate ≠ "")
    (hdup : (∃ r ∈ st.arrayList, jsToLower r.plate = jsToLower (jsTrim plate)) ∨
            (∃ q ∈ st.queue, jsToLower q.plate = jsToLower (jsTrim plate))) :
    insertReservation st plate chosenSlot time id = (.duplicateError, st) := by
  have hb : (st.arrayList.any (fun r => jsToLower r.plate == jsToLower (jsTrim plate)) ||
      st.queue.any (fun q => jsToLower q.plate == jsToLower (jsTrim plate))) = true := by
    rcases hdup with ⟨r, hr, he⟩ | ⟨q, hq, he⟩
    · refine Bool.or_eq_true _ _ |>.mpr (Or.inl ?_)
      exact List.any_eq_true.mpr ⟨r, hr, by simp [he]⟩
    · refine Bool.or_eq_true _ _ |>.mpr (Or.inr ?_)
      exact List.any_eq_true.mpr ⟨q, hq, by simp [he]⟩
  unfold insertReservation
  rw [if_neg hval]
  simp only [hb, if_pos]

/-- Witness for claim C3 at a concrete duplicate (case difference and
surrounding whitespace included). -/
theorem claim3_duplicate_insert_rejected_witness :
    insertReservation wStA " aaa " "auto" "t9" "id9" = (.duplicateError, wStA) :=
  claim3_duplicate_insert_rejected wStA " aaa " "auto" "t9" "id9" (by decide)
    (by decide)

/-- Claim C4: when ReservationList already holds N = TOTAL_SLOTS records,
inserting a valid, non-duplicate plate appends a PendingRequest for the
trimmed plate at the back of WaitQueue, reports the Queued outcome, and
leaves SlotTable and ReservationList unchanged, for every slot choice. -/
theorem claim4_full_lot_insert_queues (st : ParkState)
    (plate chosenSlot time id : String)
    (hval : jsTrim plate ≠ "")
    (hdup : (st.arrayList.any (fun r => jsToLower r.plate == jsToLower (jsTrim plate)) ||
        st.queue.any (fun q => jsToLower q.plate == jsToLower (jsTrim plate))) = false)
    (hfull : st.arrayList.length = TOTAL_SLOTS) :
    insertReservation st plate chosenSlot time id =
      (.queuedFull,
       ⟨st.parkingSlots, st.arrayList, st.queue ++ [⟨jsTrim plate, time, id⟩]⟩) := by
  unfold insertReservation
  rw [if_neg hval]
  simp only [hdup, Bool.false_eq_true, if_false, if_neg]
  rw [if_pos (by omega)]

/-- Witness for claim C4 on the fully committed concrete state. -/
theorem claim4_full_lot_insert_queues_witness :
    insertReservation wStFull "P9" "auto" "t9" "i9" =
      (.queuedFull,
       ⟨wStFull.parkingSlots, wStFull.arrayList,
        wStFull.queue ++ [⟨jsTrim "P9", "t9", "i9"⟩]⟩) :=
  claim4_full_lot_insert_queues wStFull "P9" "auto" "t9" "i9" (by decide)
    (by decide) (by decide)

/-- Claim C7: deleting an id that no reservation carries is a silent
no-op: the notFound outcome is reported and the state (all three
collections) is unchanged. -/
theorem claim7_delete_absent_noop (st : ParkState) (id ptime pid : String)
    (habs : ∀ r ∈ st.arrayList, r.id ≠ id) :
    deleteReservation st id ptime pid = (.notFound, st) := by
  have hf : st.arrayList.find? (fun r => r.id == id) = none := by
    rw [List.find?_eq_none]
    intro r hr
    simpa using habs r hr
  unfold deleteReservation
  rw [hf]

/-- Witness for claim C7 at a concrete absent id. -/
theorem claim7_delete_absent_noop_witness :
    deleteReservation wStA "missing" "t9" "id9" = (.notFound, wStA) :=
  claim7_delete_absent_noop wStA "missing" "t9" "id9" (by decide)

/-- Claim C2: when the WaitQueue is the non-empty sequence A :: rest and
delete is called with the id of a reservation occupying slot s, the head A
(and never any other element) is promoted to a new reservation at slot s
with the freshly minted id and timestamp, written into both the SlotTable
cell s-1 and the back of ReservationList; afterwards WaitQueue equals rest.
The promotion happens inside the same atomic transition, and in its result
the cell s-1 is occupied while the queue has lost exactly its head, so no
state with slot s empty and a non-empty queue is observable. -/
theorem claim2_delete_promotes_fifo_head (st : ParkState) (did ptime pid : String)
    (r0 : Reservation) (s : Nat) (A : PendingRequest) (restQ : List PendingRequest)
    (hfind : st.arrayList.find? (fun r => r.id == did) = some r0)
    (hslot : r0.slot = s)
    (hq : st.queue = A :: restQ)
    (hlen : st.parkingSlots.length = TOTAL_SLOTS)
    (hs1 : 1 ≤ s) (hsN : s ≤ TOTAL_SLOTS) :
    deleteReservation st did ptime pid =
      (.promoted A.plate s,
       { parkingSlots := st.parkingSlots.set (s - 1) (some ⟨A.plate, ptime, pid⟩)
         arrayList := st.arrayList.eraseP (fun r => r.id == did) ++
           [⟨A.plate, s, ptime, pid⟩]
         queue := restQ }) ∧
    (deleteReservation st did ptime pid).2.parkingSlots[s - 1]? =
      some (some ⟨A.plate, ptime, pid⟩) := by
  have hmain : deleteReservation st did ptime pid =
      (.promoted A.plate s,
       { parkingSlots := st.parkingSlots.set (s - 1) (some ⟨A.plate, ptime, pid⟩)
         arrayList := st.arrayList.eraseP (fun r => r.id == did) ++
           [⟨A.plate, s, ptime, pid⟩]
         queue := restQ }) := by
    unfold deleteReservation
    simp only [hfind, hq, hslot, List.set_set]
  refine ⟨hmain, ?_⟩
  rw [hmain]
  exact List.getElem?_set_self (by rw [hlen]; omega)

/-- Witness for claim C2: deleting the only reservation of wStA promotes
the single queued request BBB to the vacated slot 1. -/
theorem claim2_delete_promotes_fifo_head_witness :
    deleteReservation wStA "id1" "t9" "id9" =
      (.promoted "BBB" 1,
       { parkingSlots := wStA.parkingSlots.set 0 (some ⟨"BBB", "t9", "id9"⟩)
         arrayList := wStA.arrayList.eraseP (fun r => r.id == "id1") ++
           [⟨"BBB", 1, "t9", "id9"⟩]
         queue := [] }) :=
  (claim2_delete_promotes_fifo_head wStA "id1" "t9" "id9" ⟨"AAA", 1, "t1", "id1"⟩ 1
    ⟨"BBB", "t2", "id2"⟩ [] (by decide) (by decide) (by decide) (by decide)
    (by decide) (by decide)).1

/-- Claim C5: with a free cell available and the reservation list below
capacity, inserting a valid, non-duplicate plate with the auto slot choice
reserves the slot whose 0-based index i is the lowest index of an empty
cell (lowest index wins), writing the mirrored cell at index i and
appending the reservation with slot number i+1. -/
theorem claim5_auto_assign_lowest_free (st : ParkState) (plate time id : String)
    (i : Nat)
    (hval : jsTrim plate ≠ "")
    (hdup : (st.arrayList.any (fun r => jsToLower r.plate == jsToLower (jsTrim plate)) ||
        st.queue.any (fun q => jsToLower q.plate == jsToLower (jsTrim plate))) = false)
    (hroom : st.arrayList.length < TOTAL_SLOTS)
    (hfree : st.parkingSlots[i]? = some none)
    (hleast : ∀ j, j < i → st.parkingSlots[j]? ≠ some none) :
    insertReservation st plate "auto" time id =
      (.reserved (i + 1) id time,
       ⟨st.parkingSlots.set i (some ⟨jsTrim plate, time, id⟩),
        st.arrayList ++ [⟨jsTrim plate, i + 1, time, id⟩], st.queue⟩) := by
  have hfind : st.parkingSlots.findIdx? (fun s => s.isNone) = some i := by
    refine findIdx?_eq_of_least ?_ hfree rfl
    intro j hj x hx
    cases x with
    | none => exact absurd hx (hleast j hj)
    | some c => rfl
  unfold insertReservation
  rw [if_neg hval]
  simp only [hdup, Bool.false_eq_true, if_false]
  rw [if_neg (by omega)]
  simp [hfind, commitAt]

/-- Witness for claim C5: in wStA cell 0 is occupied and cell 1 is the
lowest free one, so auto assigns slot 2. -/
theorem claim5_auto_assign_lowest_free_witness :
    insertReservation wStA "CCC" "auto" "t9" "id9" =
      (.reserved 2 "id9" "t9",
       ⟨wStA.parkingSlots.set 1 (some ⟨"CCC", "t9", "id9"⟩),
        wStA.arrayList ++ [⟨"CCC", 2, "t9", "id9"⟩], wStA.queue⟩) :=
  claim5_auto_assign_lowest_free wStA "CCC" "t9" "id9" 1 (by decide) (by decide)
    (by decide) (by decide)
    (by intro j hj; have hj0 : j = 0 := by omega
        subst hj0; decide)

/-- Claim C6: with room in the lot and a valid, non-duplicate plate, an
explicit (non-auto) slot choice that parses to the number n fails with
InvalidSlotError when n is outside [1, N], and with SlotOccupiedError when
n is in range but the cell at index n-1 is occupied; in both cases the
whole state is unchanged. -/
theorem claim6_explicit_slot_errors (st : ParkState)
    (plate chosenSlot time id : String) (n : Int)
    (hval : jsTrim plate ≠ "")
    (hdup : (st.arrayList.any (fun r => jsToLower r.plate == jsToLower (jsTrim plate)) ||
        st.queue.any (fun q => jsToLower q.plate == jsToLower (jsTrim plate))) = false)
    (hroom : st.arrayList.length < TOTAL_SLOTS)
    (hna : chosenSlot ≠ "auto")
    (hparse : jsParseInt10 chosenSlot = some n) :
    ((n < 1 ∨ (TOTAL_SLOTS : Int) < n) →
        insertReservation st plate chosenSlot time id = (.invalidSlot, st)) ∧
    (∀ c : Cell, 1 ≤ n → n ≤ (TOTAL_SLOTS : Int) →
        st.parkingSlots[(n - 1).toNat]? = some (some c) →
        insertReservation st plate chosenSlot time id = (.slotOccupied, st)) := by
  constructor
  · intro hout
    unfold insertReservation
    rw [if_neg hval]
    simp only [hdup, Bool.false_eq_true, if_false]
    rw [if_neg (by omega), if_neg hna]
    simp only [hparse]
    rw [if_pos (by simp only [Bool.or_eq_true, decide_eq_true_eq]; omega)]
  · intro c h1 hN hocc
    unfold insertReservation
    rw [if_neg hval]
    simp only [hdup, Bool.false_eq_true, if_false]
    rw [if_neg (by omega), if_neg hna]
    simp only [hparse]
    rw [if_neg (by simp only [Bool.or_eq_true, decide_eq_true_eq]; omega)]
    rw [if_pos (by rw [List.getD_eq_getElem?_getD, hocc]; rfl)]

/-- Witness for claim C6: in wStA the choice 25 is out of range and the
choice 1 names the occupied cell 0; both leave the state unchanged. -/
theorem claim6_explicit_slot_errors_witness :
    insertReservation wStA "CCC" "25" "t9" "id9" = (.invalidSlot, wStA) ∧
    insertReservation wStA "CCC" "1" "t9" "id9" = (.slotOccupied, wStA) :=
  ⟨(claim6_explicit_slot_errors wStA "CCC" "25" "t9" "id9" 25 (by decide) (by decide)
      (by decide) (by decide) (by decide)).1 (by decide),
   (claim6_explicit_slot_errors wStA "CCC" "1" "t9" "id9" 1 (by decide) (by decide)
      (by decide) (by decide) (by decide)).2 ⟨"AAA", "t1", "id1"⟩ (by decide)
      (by decide) (by decide)⟩

/-- Claim C9: search with a term that is empty after trimming returns the
empty result set; otherwise it returns the ordered subsequence of the
current ReservationList (a sublist, hence in list order and not re-sorted)
of the records whose plate contains the trimmed term as a case-insensitive
substring or whose slot number printed as a string equals the trimmed term
exactly. -/
theorem claim9_search_characterization (st : ParkState) (term : String) :
    (jsTrim term = "" → search st term = []) ∧
    (jsTrim term ≠ "" →
      (search st term).Sublist st.arrayList ∧
      search st term = st.arrayList.filter
        (fun r =>
          containsCharList (jsToLower r.plate).data (jsToLower (jsTrim term)).data ||
          toString r.slot == jsTrim term)) := by
  refine ⟨fun h => by simp [search, h], fun h => ⟨?_, by simp [search, h]⟩⟩
  simp only [search, if_neg h]
  exact List.filter_sublist _

/-- Witness for claim C9: searching wStA for the exact slot string 1
returns exactly its one reservation, computed through the filter
characterisation. -/
theorem claim9_search_characterization_witness :
    search wStA "1" = wStA.arrayList.filter
      (fun r =>
        containsCharList (jsToLower r.plate).data (jsToLower (jsTrim "1")).data ||
        toString r.slot == jsTrim "1") :=
  ((claim9_search_characterization wStA "1").2 (by decide)).2

/-- Claim C8: after sortBySlot the slot numbers along ReservationList are
non-decreasing; the sort is stable with respect to equal keys (for every
key k the subsequence of records with slot k is exactly the one of the
input, in input order); and sortBySlot is idempotent: a second application
returns exactly the same state. -/
theorem claim8_sortBySlot_sorted_stable_idempotent (st : ParkState) :
    List.Pairwise (fun a b : Reservation => a.slot ≤ b.slot)
      (sortBySlot st).arrayList ∧
    (∀ k : Nat, (sortBySlot st).arrayList.filter (fun r => r.slot == k) =
      st.arrayList.filter (fun r => r.slot == k)) ∧
    sortBySlot (sortBySlot st) = sortBySlot st := by
  have htrans : ∀ a b c : Reservation,
      (fun a b : Reservation => (a.slot ≤ b.slot : Bool)) a b = true →
      (fun a b : Reservation => (a.slot ≤ b.slot : Bool)) b c = true →
      (fun a b : Reservation => (a.slot ≤ b.slot : Bool)) a c = true := by
    intro a b c
    simp only [decide_eq_true_eq]
    omega
  have htotal : ∀ a b : Reservation,
      ((fun a b : Reservation => (a.slot ≤ b.slot : Bool)) a b ||
       (fun a b : Reservation => (a.slot ≤ b.slot : Bool)) b a) = true := by
    intro a b
    simp only [Bool.or_eq_true, decide_eq_true_eq]
    omega
  refine ⟨?_, ?_, ?_⟩
  · exact (List.sorted_mergeSort htrans htotal st.arrayList).imp
      (fun h => by simpa using h)
  · intro k
    have hpw : List.Pairwise
        (fun a b : Reservation => (fun a b : Reservation => (a.slot ≤ b.slot : Bool)) a b = true)
        (st.arrayList.filter (fun r => r.slot == k)) := by
      refine List.pairwise_of_forall_mem_list ?_
      intro a ha b hb
      have hak : a.slot = k := by simpa using (List.mem_filter.mp ha).2
      have hbk : b.slot = k := by simpa using (List.mem_filter.mp hb).2
      simp [hak, hbk]
    have hsub : (st.arrayList.filter (fun r => r.slot == k)).Sublist
        (sortBySlot st).arrayList :=
      List.sublist_mergeSort htrans htotal hpw (List.filter_sublist _)
    have hsub2 : (st.arrayList.filter (fun r => r.slot == k)).Sublist
        ((sortBySlot st).arrayList.filter (fun r => r.slot == k)) := by
      have := List.Sublist.filter (fun r => r.slot == k) hsub
      rwa [List.filter_eq_self.mpr (fun a ha => (List.mem_filter.mp ha).2)] at this
    have hlen : ((sortBySlot st).arrayList.filter (fun r => r.slot == k)).length =
        (st.arrayList.filter (fun r => r.slot == k)).length :=
      ((List.mergeSort_perm st.arrayList _).filter _).length_eq
    exact (hsub2.eq_of_length hlen.symm).symm
  · show sortBySlot (sortBySlot st) = sortBySlot st
    unfold sortBySlot
    rw [List.mergeSort_of_sorted (List.sorted_mergeSort htrans htotal st.arrayList)]

/-- Claim C10: every newly created reservation goes to the back of
ReservationList: a successful insert reports the reserved outcome and its
post-state has ReservationList equal to the old list with exactly the new
record appended, and a delete that promotes a waiting request appends the
promoted record after the erased list (all pre-existing entries other
than the deleted one keep their relative order). -/
theorem claim10_new_reservations_appended :
    (∀ (st : ParkState) (plate chosenSlot time id : String) (s : Nat)
        (rid rt : String) (st' : ParkState),
        insertReservation st plate chosenSlot time id = (.reserved s rid rt, st') →
        rid = id ∧ rt = time ∧
        st'.arrayList = st.arrayList ++ [⟨jsTrim plate, s, time, id⟩]) ∧
    (∀ (st : ParkState) (did ptime pid pl : String) (s : Nat) (st' : ParkState),
        deleteReservation st did ptime pid = (.promoted pl s, st') →
        st'.arrayList = st.arrayList.eraseP (fun r => r.id == did) ++
          [⟨pl, s, ptime, pid⟩]) := by
  constructor
  · intro st plate chosenSlot time id s rid rt st' h
    simp only [insertReservation] at h
    split at h
    · simp at h
    · split at h
      · simp at h
      · split at h
        · simp at h
        · split at h
          · split at h
            · simp at h
            · simp only [commitAt, Prod.mk.injEq, InsertOutcome.reserved.injEq] at h
              obtain ⟨⟨hs, hid, ht⟩, hst⟩ := h
              subst hs hid ht hst
              exact ⟨rfl, rfl, rfl⟩
          · split at h
            · simp at h
            · split at h
              · simp at h
              · split at h
                · simp at h
                · simp only [commitAt, Prod.mk.injEq, InsertOutcome.reserved.injEq] at h
                  obtain ⟨⟨hs, hid, ht⟩, hst⟩ := h
                  subst hs hid ht hst
                  exact ⟨rfl, rfl, rfl⟩
  · intro st did ptime pid pl s st' h
    simp only [deleteReservation] at h
    split at h
    · simp at h
    · split at h
      · simp at h
      · simp only [Prod.mk.injEq, DeleteOutcome.promoted.injEq] at h
        obtain ⟨⟨hpl, hs⟩, hst⟩ := h
        subst hpl hs hst
        rfl

/-- Witness for claim C10: a concrete successful auto insert into the
empty lot appends at the tail, and the concrete promoting delete on wStA
appends the promoted record at the tail. -/
theorem claim10_new_reservations_appended_witness :
    (insertReservation initialState "DDD" "auto" "t0" "d1").2.arrayList =
      initialState.arrayList ++ [⟨jsTrim "DDD", 1, "t0", "d1"⟩] ∧
    (deleteReservation wStA "id1" "t9" "id9").2.arrayList =
      wStA.arrayList.eraseP (fun r => r.id == "id1") ++ [⟨"BBB", 1, "t9", "id9"⟩] :=
  ⟨(claim10_new_reservations_appended.1 initialState "DDD" "auto" "t0" "d1" 1 "d1"
      "t0" (insertReservation initialState "DDD" "auto" "t0" "d1").2
      (by decide)).2.2,
   claim10_new_reservations_appended.2 wStA "id1" "t9" "id9" "BBB" 1
      (deleteReservation wStA "id1" "t9" "id9").2 (by decide)⟩

/-! ### Preservation of the invariant. -/

/-- Committing a reservation into a free cell preserves the invariant. -/
lemma stateInv_commitAt (st : ParkState) (p t id : String) (i : Nat)
    (hinv : StateInv st) (hroom : st.arrayList.length < TOTAL_SLOTS)
    (hfree : st.parkingSlots[i]? = some none) :
    StateInv (commitAt st p t id i).2 := by
  obtain ⟨hlen, hcard, hocc, hres⟩ := hinv
  have hi : i < st.parkingSlots.length := (List.getElem?_eq_some_iff.mp hfree).1
  have hcard2 : st.arrayList.length + 1 ≤ TOTAL_SLOTS := hroom
  refine ⟨by simpa [commitAt] using hlen, by simpa [commitAt] using hcard2, ?_, ?_⟩
  · intro j c hj
    simp only [commitAt] at hj ⊢
    by_cases hij : i = j
    · subst hij
      rw [List.getElem?_set_self hi] at hj
      have hc : c = ⟨p, t, id⟩ := by simpa using hj.symm
      subst hc
      rw [List.countP_append]
      have h0 : st.arrayList.countP (matchesCell i ⟨p, t, id⟩) = 0 := by
        rw [List.countP_eq_zero]
        intro r hr hm
        have hslot : r.slot = i + 1 := by
          simp only [matchesCell, Bool.and_eq_true, beq_iff_eq] at hm
          exact hm.1.1.1
        have hcell := (hres r hr).2
        rw [hslot, Nat.add_sub_cancel, hfree] at hcell
        simp at hcell
      have h1 : List.countP (matchesCell i ⟨p, t, id⟩)
          [⟨p, i + 1, t, id⟩] = 1 := by
        simp [matchesCell]
      rw [h0, h1]
    · rw [List.getElem?_set_ne hij] at hj
      rw [List.countP_append]
      have h1 : List.countP (matchesCell j c) [⟨p, i + 1, t, id⟩] = 0 := by
        simp only [List.countP_cons, List.countP_nil, matchesCell,
          Bool.and_eq_true, beq_iff_eq]
        have : ¬(i + 1 = j + 1 ∧ p = c.plate ∧ t = c.time ∧ id = c.id) := by
          intro hcon
          exact hij (by omega)
        simp only [Nat.zero_add]
        split
        · rename_i hcon
          exact absurd ⟨hcon.1.1.1, hcon.1.1.2, hcon.1.2, hcon.2⟩ this
        · rfl
      rw [hocc j c hj, h1]
  · intro r hr
    simp only [commitAt] at hr ⊢
    rcases List.mem_append.mp hr with hr | hr
    · obtain ⟨h1r, hcell⟩ := hres r hr
      refine ⟨h1r, ?_⟩
      have hne : r.slot - 1 ≠ i := by
        intro he
        rw [he, hfree] at hcell
        simp at hcell
      rw [List.getElem?_set_ne (fun he => hne he.symm)]
      exact hcell
    · have hr' : r = ⟨p, i + 1, t, id⟩ := by simpa using hr
      subst hr'
      refine ⟨show 1 ≤ i + 1 by omega, ?_⟩
      simp only [Nat.add_sub_cancel]
      rw [List.getElem?_set_self hi]
      rfl

/-- Removing the first reservation whose id matches and clearing its cell
preserves the invariant, with any queue contents. -/
lemma stateInv_erase (st : ParkState) (did : String) (r0 : Reservation)
    (q : List PendingRequest) (hinv : StateInv st)
    (hfind : st.arrayList.find? (fun r => r.id == did) = some r0) :
    StateInv ⟨st.parkingSlots.set (r0.slot - 1) none,
      st.arrayList.eraseP (fun r => r.id == did), q⟩ := by
  obtain ⟨hlen, hcard, hocc, hres⟩ := hinv
  obtain ⟨l₁, l₂, hdec, herase, hno⟩ := find?_eraseP_split _ _ _ hfind
  have hr0 : r0 ∈ st.arrayList := List.mem_of_find?_eq_some hfind
  obtain ⟨hs1, hcell0⟩ := hres r0 hr0
  have hslt : r0.slot - 1 < st.parkingSlots.length :=
    (List.getElem?_eq_some_iff.mp hcell0).1
  refine ⟨by simpa using hlen, le_trans (List.length_eraseP_le _) hcard, ?_, ?_⟩
  · intro j c hj
    simp only at hj ⊢
    have hjne : r0.slot - 1 ≠ j := by
      intro he
      rw [← he, List.getElem?_set_self hslt] at hj
      simp at hj
    rw [List.getElem?_set_ne hjne] at hj
    have hcnt := hocc j c hj
    rw [herase, List.countP_append]
    rw [hdec, List.countP_append, List.countP_cons] at hcnt
    have hm0 : matchesCell j c r0 = false := by
      cases hmc : matchesCell j c r0
      · rfl
      · exfalso
        have hsl : r0.slot = j + 1 := by
          simp only [matchesCell, Bool.and_eq_true, beq_iff_eq] at hmc
          exact hmc.1.1.1
        exact hjne (by omega)
    rw [hm0] at hcnt
    simp only [Bool.false_eq_true, if_false, Nat.add_zero] at hcnt
    omega
  · intro r hr
    simp only at hr ⊢
    rw [herase] at hr
    have hrl : r ∈ st.arrayList := by
      rw [hdec]
      rcases List.mem_append.mp hr with h | h
      · exact List.mem_append.mpr (Or.inl h)
      · exact List.mem_append.mpr (Or.inr (List.mem_cons_of_mem _ h))
    obtain ⟨h1r, hcellr⟩ := hres r hrl
    refine ⟨h1r, ?_⟩
    have hne : r.slot ≠ r0.slot := by
      intro he
      have hceq : cellOf r = cellOf r0 := by
        rw [he] at hcellr
        have := hcellr.symm.trans hcell0
        simpa using this
      have hfields : r.plate = r0.plate ∧ r.time = r0.time ∧ r.id = r0.id := by
        simpa [cellOf, Cell.mk.injEq] using hceq
      have hcnt := hocc (r0.slot - 1) (cellOf r0) hcell0
      rw [hdec, List.countP_append, List.countP_cons] at hcnt
      have hm0 : matchesCell (r0.slot - 1) (cellOf r0) r0 = true := by
        simp [matchesCell, cellOf]
        omega
      have hmr : matchesCell (r0.slot - 1) (cellOf r0) r = true := by
        simp [matchesCell, cellOf, hfields.1, hfields.2.1, hfields.2.2]
        omega
      rw [hm0] at hcnt
      simp only [if_true, if_pos] at hcnt
      rcases List.mem_append.mp hr with h | h
      · have hpos : 0 < l₁.countP (matchesCell (r0.slot - 1) (cellOf r0)) :=
          List.countP_pos_iff.mpr ⟨r, h, hmr⟩
        omega
      · have hpos : 0 < l₂.countP (matchesCell (r0.slot - 1) (cellOf r0)) :=
          List.countP_pos_iff.mpr ⟨r, h, hmr⟩
        omega
    rw [List.getElem?_set_ne (show r0.slot - 1 ≠ r.slot - 1 by omega)]
    exact hcellr

/-- insertReservation preserves the invariant, whatever its inputs. -/
lemma stateInv_insert (st : ParkState) (p c t id : String) (hinv : StateInv st) :
    StateInv (insertReservation st p c t id).2 := by
  simp only [insertReservation]
  split
  · exact hinv
  · split
    · exact hinv
    · split
      · exact ⟨hinv.1, hinv.2.1, hinv.2.2.1, hinv.2.2.2⟩
      · next hfull =>
        have hroom : st.arrayList.length < TOTAL_SLOTS := by omega
        split
        · split
          · exact ⟨hinv.1, hinv.2.1, hinv.2.2.1, hinv.2.2.2⟩
          · next slotIndex hfind =>
            obtain ⟨x, hx, hpx⟩ := of_findIdx?_eq_some hfind
            have hfree : st.parkingSlots[slotIndex]? = some none := by
              cases x with
              | none => exact hx
              | some cc => simp at hpx
            exact stateInv_commitAt st _ t id slotIndex hinv hroom hfree
        · split
          · exact hinv
          · next n hparse =>
            split
            · exact hinv
            · next hbound =>
              split
              · exact hinv
              · next hocc =>
                have hb : 0 ≤ n - 1 ∧ n - 1 < (TOTAL_SLOTS : Int) := by
                  simp only [Bool.or_eq_true, decide_eq_true_eq, not_or] at hbound
                  omega
                have hidx : (n - 1).toNat < st.parkingSlots.length := by
                  rw [hinv.1]; omega
                have hfree : st.parkingSlots[(n - 1).toNat]? = some none := by
                  rw [List.getElem?_eq_getElem hidx]
                  congr 1
                  have hgd := List.getD_eq_getElem?_getD st.parkingSlots
                    (n - 1).toNat none
                  rw [List.getElem?_eq_getElem hidx] at hgd
                  simp only [Option.getD_some] at hgd
                  rw [hgd] at hocc
                  cases hval : st.parkingSlots[(n - 1).toNat] with
                  | none => rfl
                  | some cc => rw [hval] at hocc; simp at hocc
                exact stateInv_commitAt st _ t id (n - 1).toNat hinv hroom hfree

/-- deleteReservation preserves the invariant, whatever its inputs. -/
lemma stateInv_delete (st : ParkState) (did pt pid : String) (hinv : StateInv st) :
    StateInv (deleteReservation st did pt pid).2 := by
  simp only [deleteReservation]
  split
  · exact hinv
  · next r0 hfind =>
    split
    · exact stateInv_erase st did r0 [] hinv hfind
    · next nxt restQ hq =>
      have hmid := stateInv_erase st did r0 restQ hinv hfind
      obtain ⟨hs1, hcell0⟩ := hinv.2.2.2 r0 (List.mem_of_find?_eq_some hfind)
      have hslt : r0.slot - 1 < st.parkingSlots.length :=
        (List.getElem?_eq_some_iff.mp hcell0).1
      have hfree : ((st.parkingSlots.set (r0.slot - 1) none))[r0.slot - 1]? =
          some none := List.getElem?_set_self hslt
      have hany : st.arrayList.any (fun r => r.id == did) = true := by
        have hp := List.find?_some hfind
        exact List.any_eq_true.mpr ⟨r0, List.mem_of_find?_eq_some hfind, hp⟩
      have hroom : (st.arrayList.eraseP (fun r => r.id == did)).length <
          TOTAL_SLOTS := by
        rw [List.length_eraseP, if_pos hany]
        have hpos : 0 < TOTAL_SLOTS := by decide
        have hle := hinv.2.1
        omega
      have hgoal := stateInv_commitAt
        ⟨st.parkingSlots.set (r0.slot - 1) none,
         st.arrayList.eraseP (fun r => r.id == did), restQ⟩
        nxt.plate pt pid (r0.slot - 1) hmid hroom hfree
      simp only [commitAt] at hgoal
      have hsr : r0.slot - 1 + 1 = r0.slot := by omega
      rw [hsr] at hgoal
      exact hgoal

/-- The startup state satisfies the invariant. -/
lemma stateInv_initialState : StateInv initialState := by
  refine ⟨by simp [initialState], by simp [initialState], ?_, by simp [initialState]⟩
  intro i c h
  simp only [initialState, List.getElem?_replicate] at h
  split at h
  · simp at h
  · simp at h

/-- Claim C1: after every sequence of insert and delete operations played
from the empty startup state, the reached state satisfies the capacity
bound and the bijection invariant: ReservationList has at most N =
TOTAL_SLOTS entries; every occupied SlotTable cell at index i holds
contents matched by exactly one Reservation (slot number i+1 and the same
plate, timestamp and id); and conversely every Reservation has slot at
least 1 and is mirrored exactly by the occupied cell at index slot-1, its
unique corresponding cell.  Since the operation list is arbitrary, the
invariant holds after each operation of any run. -/
theorem claim1_invariant_all_runs (ops : List Op) : StateInv (runOps ops) := by
  have hstep : ∀ (l : List Op) (st : ParkState), StateInv st →
      StateInv (l.foldl applyOp st) := by
    intro l
    induction l with
    | nil => intro st h; exact h
    | cons op rest ih =>
      intro st h
      refine ih _ ?_
      cases op with
      | ins p c t i => exact stateInv_insert st p c t i h
      | del i pt pid => exact stateInv_delete st i pt pid h
  exact hstep ops initialState stateInv_initialState

end SmartPark
